import Mathlib

/-!
Verification of the Monte Carlo IRL simulation core of the IRL-Database
repository (`app.py`, with table shapes from `database_setup.py`).

The embedding is a shallow one over ℚ:

* `MethodTechnologyService` mirrors the eight range columns of the
  `method_technology_services` table.
* `sample_normal_dist` mirrors `app.py`'s sampler.  The call
  `np.random.normal(mean_val, std_dev)` is modelled as
  `mean_val + std_dev * z` where `z` is an arbitrary (standard-normal)
  draw supplied as an explicit argument; `np.clip(a, lo, hi)` is
  `min hi (max a lo)`.
* `monte_carlo_simulation` mirrors the trial loop, including the local
  variable `weights` that is assigned only inside the per-method branch
  whose service row exists: it is threaded as an `Option Weights`, and
  reading it while unassigned produces `SimError.unboundLocalError`
  (Python's `UnboundLocalError`).  A failing dictionary lookup
  `method_weights[method.method_id]` produces `SimError.keyError`
  (Python's `KeyError` carrying the missing key).
* The source draws randomness from the global NumPy stream; here each
  sampler call site receives its own arbitrary draw, indexed by
  (trial, position of the method in the selection, attribute index).
* `generate_radar_chart` is modelled up to the computation of its
  `values` list (the matplotlib rendering is not modelled); `np.mean`
  of an empty list (NaN in NumPy) is modelled as `none`.
-/

/-- The eight per-attribute range columns of one
`method_technology_services` row (`database_setup.py`, in column order). -/
structure MethodTechnologyService where
  maturity_min : ℚ
  maturity_max : ℚ
  cost_min : ℚ
  cost_max : ℚ
  interoperability_min : ℚ
  interoperability_max : ℚ
  integration_min : ℚ
  integration_max : ℚ
deriving DecidableEq

/-- The per-method weight dictionary built by the UI sliders
(`app.py` lines 52-61): one weight per attribute. -/
structure Weights where
  cost_w : ℚ
  maturity_w : ℚ
  integration_w : ℚ
  interoperability_w : ℚ
deriving DecidableEq

/-- `sum(weights.values())` from `app.py` line 96: the sum of the four
weight values of one method's weight dictionary. -/
def Weights.values_sum (w : Weights) : ℚ :=
  w.cost_w + w.maturity_w + w.integration_w + w.interoperability_w

/-- The read-only inputs of one simulation run: the service-row lookup
`session.query(MethodTechnologyService).filter_by(method_id=m).first()`
and the `method_weights` dictionary lookup, both by method id. -/
structure SimInput where
  services : ℕ → Option MethodTechnologyService
  method_weights : ℕ → Option Weights

/-- The failure modes of `monte_carlo_simulation` as written:
`keyError m` is Python's `KeyError` raised by `method_weights[m]`;
`unboundLocalError` is Python's `UnboundLocalError` raised at line 96
when the local `weights` is read before any assignment. -/
inductive SimError where
  | keyError : ℕ → SimError
  | unboundLocalError : SimError
deriving DecidableEq

/-- `sample_normal_dist` (`app.py` lines 64-66): mean of the range, one
normal draw `mean_val + std_dev * z`, clipped into `[min_val, max_val]`
by `np.clip` = `min max_val (max draw min_val)`. -/
def sample_normal_dist (min_val max_val std_dev z : ℚ) : ℚ :=
  let mean_val := (min_val + max_val) / 2
  min max_val (max (mean_val + std_dev * z) min_val)

/-- The sampler's default spread (`std_dev=0.5` in `app.py` line 64);
`monte_carlo_simulation` passes this default at every sampler call. -/
def default_std_dev : ℚ := 1 / 2

/-- The default trial count (`n_simulations=10000` in `app.py` line 69). -/
def default_n_simulations : ℕ := 10000

/-- The inner per-method loop of one trial (`app.py` lines 73-94).
`zt i a` is the draw for the method at position `i`, attribute `a`
(0 = cost, 1 = maturity, 2 = integration, 3 = interoperability).
`total_irl` accumulates weighted scores; `weights` is the function's
local `weights` variable (`none` = not yet assigned).  A method whose
service row is absent is skipped; a present service row samples the
four attributes, then looks up the method's weights (`KeyError` when
absent), adds the linearly weighted score, and records the weights as
the last assignment of the local variable. -/
def method_loop (inp : SimInput) (std_dev : ℚ) (zt : ℕ → ℕ → ℚ) :
    List ℕ → ℕ → ℚ → Option Weights → Except SimError (ℚ × Option Weights)
  | [], _, total_irl, weights => .ok (total_irl, weights)
  | m :: rest, i, total_irl, weights =>
    match inp.services m with
    | none => method_loop inp std_dev zt rest (i + 1) total_irl weights
    | some service =>
      let cost_score :=
        sample_normal_dist service.cost_min service.cost_max std_dev (zt i 0)
      let maturity_score :=
        sample_normal_dist service.maturity_min service.maturity_max std_dev (zt i 1)
      let integration_score :=
        sample_normal_dist service.integration_min service.integration_max std_dev (zt i 2)
      let interoperability_score :=
        sample_normal_dist service.interoperability_min service.interoperability_max std_dev (zt i 3)
      match inp.method_weights m with
      | none => .error (.keyError m)
      | some w =>
        let weighted_score :=
          w.cost_w * cost_score +
          w.maturity_w * maturity_score +
          w.integration_w * integration_score +
          w.interoperability_w * interoperability_score
        method_loop inp std_dev zt rest (i + 1) (total_irl + weighted_score) (some w)

/-- The outer trial loop (`app.py` lines 71-97).  `z t` supplies the
draws of trial `t`; `weights` is the local `weights` variable carried
across trials (it stays bound once assigned).  After each trial the
code reads `weights` to build `normalization_factor =
sum(weights.values()) * len(selected_methods)` — reading it unassigned
is `UnboundLocalError` — and appends `total_irl / normalization_factor`. -/
def trials_loop (inp : SimInput) (std_dev : ℚ) (z : ℕ → ℕ → ℕ → ℚ)
    (selected_methods : List ℕ) :
    ℕ → ℕ → Option Weights → Except SimError (List ℚ)
  | 0, _, _ => .ok []
  | n + 1, t, weights =>
    match method_loop inp std_dev (z t) selected_methods 0 0 weights with
    | .error e => .error e
    | .ok (total_irl, weights') =>
      match weights' with
      | none => .error .unboundLocalError
      | some w =>
        let normalization_factor :=
          w.values_sum * (selected_methods.length : ℚ)
        match trials_loop inp std_dev z selected_methods n (t + 1) (some w) with
        | .error e => .error e
        | .ok rest => .ok (total_irl / normalization_factor :: rest)

/-- `monte_carlo_simulation` (`app.py` lines 69-98): run `n_simulations`
trials starting with the local `weights` variable unassigned and return
the list of normalized IRL scores in trial order. -/
def monte_carlo_simulation (inp : SimInput) (std_dev : ℚ)
    (z : ℕ → ℕ → ℕ → ℚ) (selected_methods : List ℕ)
    (n_simulations : ℕ) : Except SimError (List ℚ) :=
  trials_loop inp std_dev z selected_methods n_simulations 0 none

/-- The mean of a list of rationals, `none` for the empty list
(modelling NaN from NumPy's `np.mean([])`). -/
def listMean (xs : List ℚ) : Option ℚ :=
  if xs.isEmpty then none else some (xs.sum / (xs.length : ℚ))

/-- The midpoint `(lo + hi) / 2` of one attribute's range, as used both
by the sampler's mean and by the radar chart. -/
def midpoint_q (lo hi : ℚ) : ℚ := (lo + hi) / 2

/-- `generate_radar_chart` (`app.py` lines 101-117), modelled up to its
`values` list: for each category in the order Maturity,
Interoperability, Integration, Cost, the mean over the selected methods
having a service row of that attribute's `(min + max) / 2` midpoint,
then the first value appended again to close the chart. -/
def generate_radar_chart (inp : SimInput) (selected_methods : List ℕ) :
    List (Option ℚ) :=
  let rows := selected_methods.filterMap inp.services
  let values := [
    listMean (rows.map (fun s => midpoint_q s.maturity_min s.maturity_max)),
    listMean (rows.map (fun s => midpoint_q s.interoperability_min s.interoperability_max)),
    listMean (rows.map (fun s => midpoint_q s.integration_min s.integration_max)),
    listMean (rows.map (fun s => midpoint_q s.cost_min s.cost_max))]
  values ++ values.take 1

/-- Specification-side score of one method in one trial: zero when the
service row is absent or the weights are absent, else the linearly
weighted sum of the four clipped samples.  Defined independently of
`method_loop` so that theorems relate the engine to it. -/
def methodScore (inp : SimInput) (std_dev : ℚ) (zi : ℕ → ℚ) (m : ℕ) : ℚ :=
  match inp.services m, inp.method_weights m with
  | some s, some w =>
    w.cost_w * sample_normal_dist s.cost_min s.cost_max std_dev (zi 0) +
    w.maturity_w * sample_normal_dist s.maturity_min s.maturity_max std_dev (zi 1) +
    w.integration_w * sample_normal_dist s.integration_min s.integration_max std_dev (zi 2) +
    w.interoperability_w * sample_normal_dist s.interoperability_min s.interoperability_max std_dev (zi 3)
  | _, _ => 0

/-- Sum of `methodScore` over a method list, drawing at positions
starting from `i`. -/
def trialTotalFrom (inp : SimInput) (std_dev : ℚ) (zt : ℕ → ℕ → ℚ) :
    List ℕ → ℕ → ℚ
  | [], _ => 0
  | m :: rest, i => methodScore inp std_dev (zt i) m + trialTotalFrom inp std_dev zt rest (i + 1)

/-- The accumulated weighted total of one trial. -/
def trialTotal (inp : SimInput) (std_dev : ℚ) (zt : ℕ → ℕ → ℚ)
    (ms : List ℕ) : ℚ :=
  trialTotalFrom inp std_dev zt ms 0

/-- The value of the local `weights` variable after the per-method loop,
given its value `w0` before the loop: every method with a service row
overwrites it with that method's `method_weights` entry. -/
def loop_weights (inp : SimInput) : Option Weights → List ℕ → Option Weights
  | w0, [] => w0
  | w0, m :: rest =>
    match inp.services m with
    | none => loop_weights inp w0 rest
    | some _ => loop_weights inp (inp.method_weights m) rest

/-- Specification-side description of the "last processed method": the
weights entry of the last method in the selection that has a service
row. -/
def last_ranged_weights (inp : SimInput) (ms : List ℕ) : Option Weights :=
  ((ms.filter (fun m => (inp.services m).isSome)).getLast?).bind inp.method_weights

/-- The sum over all selected methods (that have a weights entry) of
their four-value weight sums: the divisor the specification contrasts
with the one the source actually uses. -/
def all_weights_sum (inp : SimInput) (ms : List ℕ) : ℚ :=
  ((ms.filterMap inp.method_weights).map Weights.values_sum).sum

/-- Population variance of a list of rationals (square of NumPy's
`np.std`), zero for the empty list. -/
def listVariance (xs : List ℚ) : ℚ :=
  ((xs.map (fun x => (x - xs.sum / (xs.length : ℚ)) ^ 2)).sum) / (xs.length : ℚ)

/-- `inp` with method `m`'s weights entry replaced by `w'` (everything
else unchanged). -/
def set_weights (inp : SimInput) (m : ℕ) (w' : Option Weights) : SimInput :=
  { inp with method_weights := fun k => if k = m then w' else inp.method_weights k }

/-- Pointwise hypothesis that every service row of a method list has all
four ranges degenerate (min = max). -/
def PointRanges (inp : SimInput) (ms : List ℕ) : Prop :=
  ∀ m ∈ ms, ∀ s, inp.services m = some s →
    s.cost_min = s.cost_max ∧ s.maturity_min = s.maturity_max ∧
    s.integration_min = s.integration_max ∧ s.interoperability_min = s.interoperability_max

/-! ### Concrete fixtures used in witnesses and counterexamples -/

/-- The identically-zero draw stream. -/
def z0 : ℕ → ℕ → ℕ → ℚ := fun _ _ _ => 0

/-- Weight dictionary with every slider at `1.0`. -/
def w_ones : Weights := ⟨1, 1, 1, 1⟩

/-- Weight dictionary with every slider at `2.0`. -/
def w_twos : Weights := ⟨2, 2, 2, 2⟩

/-- A service row whose eight range bounds are all `1`. -/
def row_ones : MethodTechnologyService := ⟨1, 1, 1, 1, 1, 1, 1, 1⟩

/-- The service row of the specification's concrete scenario:
Cost `[3,5]`, Maturity `[6,8]`, Integration `[4,6]`,
Interoperability `[5,7]` (fields in the table's column order). -/
def row9 : MethodTechnologyService := ⟨6, 8, 3, 5, 5, 7, 4, 6⟩

/-- Catalog with two methods (ids 1 and 2), both with all-ones point
ranges; method 1 weighted all-ones, method 2 all-twos. -/
def inp2 : SimInput where
  services := fun m => if m = 1 ∨ m = 2 then some row_ones else none
  method_weights := fun m =>
    if m = 1 then some w_ones else if m = 2 then some w_twos else none

/-- Catalog for the concrete one-method scenario: method 1 has `row9`
and all-ones weights. -/
def inp9 : SimInput where
  services := fun m => if m = 1 then some row9 else none
  method_weights := fun m => if m = 1 then some w_ones else none

/-- The empty catalog: no service rows, no weight entries. -/
def inp_empty : SimInput where
  services := fun _ => none
  method_weights := fun _ => none

/-! ### Helper lemmas about the engine loops -/

/-- When every selected method with a service row also has a weights
entry, the per-method loop succeeds and computes the accumulated total
plus the sum of the per-method scores, leaving the local `weights`
variable as described by `loop_weights`. -/
lemma method_loop_ok (inp : SimInput) (std_dev : ℚ) (zt : ℕ → ℕ → ℚ) :
    ∀ (ms : List ℕ) (i : ℕ) (t : ℚ) (w0 : Option Weights),
      (∀ m ∈ ms, (inp.services m).isSome → (inp.method_weights m).isSome) →
      method_loop inp std_dev zt ms i t w0 =
        .ok (t + trialTotalFrom inp std_dev zt ms i, loop_weights inp w0 ms)
  | [], i, t, w0, _ => by
    simp [method_loop, trialTotalFrom, loop_weights]
  | m :: rest, i, t, w0, H => by
    have hm : (inp.services m).isSome → (inp.method_weights m).isSome :=
      H m (List.mem_cons_self m rest)
    have Hr : ∀ m' ∈ rest, (inp.services m').isSome → (inp.method_weights m').isSome :=
      fun m' hm' => H m' (List.mem_cons_of_mem m hm')
    cases hs : inp.services m with
    | none =>
      simp only [method_loop, hs, trialTotalFrom, loop_weights, methodScore]
      rw [method_loop_ok inp std_dev zt rest (i + 1) t w0 Hr]
      norm_num
    | some s =>
      have hw' : (inp.method_weights m).isSome := hm (by simp [hs])
      obtain ⟨w, hw⟩ := Option.isSome_iff_exists.mp hw'
      simp only [method_loop, hs, hw, trialTotalFrom, loop_weights, methodScore]
      rw [method_loop_ok inp std_dev zt rest (i + 1) _ (some w) Hr]
      simp only [Except.ok.injEq, Prod.mk.injEq]
      constructor
      · ring
      · trivial

/-- Either the two initial values of the local `weights` variable are
both overwritten by the loop (so the results agree), or the loop never
assigns it (so each initial value survives unchanged). -/
lemma loop_weights_cases (inp : SimInput) :
    ∀ (ms : List ℕ) (w0 w1 : Option Weights),
      loop_weights inp w0 ms = loop_weights inp w1 ms ∨
      (loop_weights inp w0 ms = w0 ∧ loop_weights inp w1 ms = w1)
  | [], w0, w1 => Or.inr ⟨rfl, rfl⟩
  | m :: rest, w0, w1 => by
    cases hs : inp.services m with
    | none =>
      simpa only [loop_weights, hs] using loop_weights_cases inp rest w0 w1
    | some s =>
      simp only [loop_weights, hs]
      exact Or.inl trivial

/-- Once the loop has produced an assigned value, running the loop again
starting from that value reproduces it. -/
lemma loop_weights_stable (inp : SimInput) (ms : List ℕ) (w : Weights)
    (w0 : Option Weights) (h : loop_weights inp w0 ms = some w) :
    loop_weights inp (some w) ms = some w := by
  rcases loop_weights_cases inp ms (some w) w0 with heq | ⟨h1, h2⟩
  · rw [heq]
    exact h
  · exact h1

/-- Starting from an unassigned local `weights` variable, the value left
by the loop is the weights entry of the last selected method that has a
service row. -/
lemma loop_weights_none_eq (inp : SimInput) :
    ∀ ms : List ℕ, loop_weights inp none ms = last_ranged_weights inp ms := by
  have key : ∀ (ms : List ℕ) (w0 : Option Weights),
      loop_weights inp w0 ms =
        match (ms.filter (fun m => (inp.services m).isSome)).getLast? with
        | none => w0
        | some m => inp.method_weights m := by
    intro ms
    induction ms with
    | nil => intro w0; simp [loop_weights]
    | cons m rest ih =>
      intro w0
      cases hs : inp.services m with
      | none =>
        rw [show loop_weights inp w0 (m :: rest) = loop_weights inp w0 rest by
          simp [loop_weights, hs]]
        rw [ih w0]
        have hfilter : (m :: rest).filter (fun k => (inp.services k).isSome) =
            rest.filter (fun k => (inp.services k).isSome) := by
          simp [List.filter_cons, hs]
        rw [hfilter]
      | some s =>
        rw [show loop_weights inp w0 (m :: rest) =
            loop_weights inp (inp.method_weights m) rest by simp [loop_weights, hs]]
        rw [ih (inp.method_weights m)]
        have hfilter : (m :: rest).filter (fun k => (inp.services k).isSome) =
            m :: rest.filter (fun k => (inp.services k).isSome) := by
          simp [List.filter_cons, hs]
        rw [hfilter]
        cases hfr : rest.filter (fun k => (inp.services k).isSome) with
        | nil => simp
        | cons b l =>
          rw [List.getLast?_cons_cons]
          cases hbl : (b :: l).getLast? with
          | none => exact absurd (List.getLast?_eq_none_iff.mp hbl) (by simp)
          | some k => simp
  intro ms
  rw [key ms none]
  unfold last_ranged_weights
  cases hg : (ms.filter (fun m => (inp.services m).isSome)).getLast? with
  | none => simp
  | some m => simp

/-- Closed form of the trial loop: when every method with a service row
has weights and the loop leaves the local `weights` variable bound to
`w`, trial `t + k` contributes
`trialTotal / (w.values_sum * number of selected methods)`. -/
lemma trials_loop_ok (inp : SimInput) (std_dev : ℚ) (z : ℕ → ℕ → ℕ → ℚ)
    (ms : List ℕ) (w : Weights)
    (H : ∀ m ∈ ms, (inp.services m).isSome → (inp.method_weights m).isSome) :
    ∀ (T t : ℕ) (w0 : Option Weights), loop_weights inp w0 ms = some w →
      trials_loop inp std_dev z ms T t w0 =
        .ok ((List.range T).map (fun k =>
          trialTotal inp std_dev (z (t + k)) ms / (w.values_sum * (ms.length : ℚ))))
  | 0, t, w0, _ => by simp [trials_loop]
  | T + 1, t, w0, hw0 => by
    have hstable : loop_weights inp (some w) ms = some w :=
      loop_weights_stable inp ms w w0 hw0
    have hrec := trials_loop_ok inp std_dev z ms w H T (t + 1) (some w) hstable
    simp only [trials_loop, method_loop_ok inp std_dev (z t) ms 0 0 w0 H, hw0, zero_add,
      hrec, trialTotal]
    rw [List.range_succ_eq_map, List.map_cons, List.map_map]
    simp only [Nat.add_zero, Except.ok.injEq, List.cons.injEq]
    constructor
    · trivial
    · apply List.map_congr_left
      intro k _
      simp only [Function.comp]
      rw [show t + Nat.succ k = t + 1 + k by omega]

/-- Closed form of `monte_carlo_simulation` on inputs where every
selected method with a service row has a weights entry and the last
such method's weights are `w`: the run succeeds and the score of trial
`t` is its accumulated total divided by `w.values_sum` times the number
of selected methods. -/
lemma monte_carlo_ok (inp : SimInput) (std_dev : ℚ) (z : ℕ → ℕ → ℕ → ℚ)
    (ms : List ℕ) (T : ℕ) (w : Weights)
    (H1 : ∀ m ∈ ms, (inp.services m).isSome → (inp.method_weights m).isSome)
    (H2 : last_ranged_weights inp ms = some w) :
    monte_carlo_simulation inp std_dev z ms T =
      .ok ((List.range T).map (fun t =>
        trialTotal inp std_dev (z t) ms / (w.values_sum * (ms.length : ℚ)))) := by
  have h0 : loop_weights inp none ms = some w := by
    rw [loop_weights_none_eq]
    exact H2
  have := trials_loop_ok inp std_dev z ms w H1 T 0 none h0
  simpa using this

/-- If the per-method loop completes without raising, every traversed
method with a service row had a weights entry. -/
lemma method_loop_ok_weights (inp : SimInput) (std_dev : ℚ) (zt : ℕ → ℕ → ℚ) :
    ∀ (ms : List ℕ) (i : ℕ) (t : ℚ) (w0 : Option Weights) (p : ℚ × Option Weights),
      method_loop inp std_dev zt ms i t w0 = .ok p →
      ∀ m ∈ ms, (inp.services m).isSome → (inp.method_weights m).isSome
  | [], i, t, w0, p, _ => by intro m hm; cases hm
  | m0 :: rest, i, t, w0, p, h => by
    intro m hm hsm
    rcases List.mem_cons.mp hm with rfl | hm'
    · cases hs : inp.services m with
      | none => rw [hs] at hsm; cases hsm
      | some s =>
        by_contra hwn
        rw [Option.not_isSome_iff_eq_none] at hwn
        rw [show method_loop inp std_dev zt (m :: rest) i t w0 = .error (.keyError m) by
          simp [method_loop, hs, hwn]] at h
        cases h
    · cases hs : inp.services m0 with
      | none =>
        rw [show method_loop inp std_dev zt (m0 :: rest) i t w0 =
            method_loop inp std_dev zt rest (i + 1) t w0 by simp [method_loop, hs]] at h
        exact method_loop_ok_weights inp std_dev zt rest (i + 1) t w0 p h m hm' hsm
      | some s =>
        cases hw : inp.method_weights m0 with
        | none =>
          rw [show method_loop inp std_dev zt (m0 :: rest) i t w0 = .error (.keyError m0) by
            simp [method_loop, hs, hw]] at h
          cases h
        | some w1 =>
          rw [show method_loop inp std_dev zt (m0 :: rest) i t w0 =
              method_loop inp std_dev zt rest (i + 1)
                (t +
                  (w1.cost_w * sample_normal_dist s.cost_min s.cost_max std_dev (zt i 0) +
                    w1.maturity_w * sample_normal_dist s.maturity_min s.maturity_max std_dev (zt i 1) +
                    w1.integration_w * sample_normal_dist s.integration_min s.integration_max std_dev (zt i 2) +
                    w1.interoperability_w * sample_normal_dist s.interoperability_min s.interoperability_max std_dev (zt i 3)))
                (some w1) by
            simp [method_loop, hs, hw]] at h
          exact method_loop_ok_weights inp std_dev zt rest (i + 1) _ (some w1) p h m hm' hsm

/-- If some traversed method has a service row but no weights entry,
the per-method loop raises a `KeyError` naming such a method. -/
lemma method_loop_key_error (inp : SimInput) (std_dev : ℚ) (zt : ℕ → ℕ → ℚ) :
    ∀ (ms : List ℕ) (i : ℕ) (t : ℚ) (w0 : Option Weights),
      (∃ m ∈ ms, (inp.services m).isSome ∧ inp.method_weights m = none) →
      ∃ m', method_loop inp std_dev zt ms i t w0 = .error (.keyError m') ∧
        (inp.services m').isSome ∧ inp.method_weights m' = none
  | [], i, t, w0, hex => absurd hex (by simp)
  | m0 :: rest, i, t, w0, hex => by
    cases hs : inp.services m0 with
    | none =>
      have hex' : ∃ m ∈ rest, (inp.services m).isSome ∧ inp.method_weights m = none := by
        obtain ⟨m, hm, hsm, hwm⟩ := hex
        rcases List.mem_cons.mp hm with rfl | hm'
        · rw [hs] at hsm; cases hsm
        · exact ⟨m, hm', hsm, hwm⟩
      obtain ⟨m', h1, h2, h3⟩ := method_loop_key_error inp std_dev zt rest (i + 1) t w0 hex'
      refine ⟨m', ?_, h2, h3⟩
      rw [show method_loop inp std_dev zt (m0 :: rest) i t w0 =
          method_loop inp std_dev zt rest (i + 1) t w0 by simp [method_loop, hs]]
      exact h1
    | some s =>
      cases hw : inp.method_weights m0 with
      | none =>
        refine ⟨m0, ?_, by simp [hs], hw⟩
        simp [method_loop, hs, hw]
      | some w1 =>
        have hex' : ∃ m ∈ rest, (inp.services m).isSome ∧ inp.method_weights m = none := by
          obtain ⟨m, hm, hsm, hwm⟩ := hex
          rcases List.mem_cons.mp hm with rfl | hm'
          · rw [hw] at hwm; cases hwm
          · exact ⟨m, hm', hsm, hwm⟩
        obtain ⟨m', h1, h2, h3⟩ := method_loop_key_error inp std_dev zt rest (i + 1)
          (t +
            (w1.cost_w * sample_normal_dist s.cost_min s.cost_max std_dev (zt i 0) +
              w1.maturity_w * sample_normal_dist s.maturity_min s.maturity_max std_dev (zt i 1) +
              w1.integration_w * sample_normal_dist s.integration_min s.integration_max std_dev (zt i 2) +
              w1.interoperability_w * sample_normal_dist s.interoperability_min s.interoperability_max std_dev (zt i 3)))
          (some w1) hex'
        refine ⟨m', ?_, h2, h3⟩
        rw [show method_loop inp std_dev zt (m0 :: rest) i t w0 =
              method_loop inp std_dev zt rest (i + 1)
                (t +
                  (w1.cost_w * sample_normal_dist s.cost_min s.cost_max std_dev (zt i 0) +
                    w1.maturity_w * sample_normal_dist s.maturity_min s.maturity_max std_dev (zt i 1) +
                    w1.integration_w * sample_normal_dist s.integration_min s.integration_max std_dev (zt i 2) +
                    w1.interoperability_w * sample_normal_dist s.interoperability_min s.interoperability_max std_dev (zt i 3)))
                (some w1) by simp [method_loop, hs, hw]]
        exact h1

/-- A method whose service row is absent is skipped entirely: when no
traversed method has a service row, the loop returns the accumulator
and the local `weights` variable untouched. -/
lemma method_loop_all_none (inp : SimInput) (std_dev : ℚ) (zt : ℕ → ℕ → ℚ) :
    ∀ (ms : List ℕ) (i : ℕ) (t : ℚ) (w0 : Option Weights),
      (∀ m ∈ ms, inp.services m = none) →
      method_loop inp std_dev zt ms i t w0 = .ok (t, w0)
  | [], i, t, w0, _ => by simp [method_loop]
  | m0 :: rest, i, t, w0, hall => by
    have hs : inp.services m0 = none := hall m0 (List.mem_cons_self m0 rest)
    rw [show method_loop inp std_dev zt (m0 :: rest) i t w0 =
        method_loop inp std_dev zt rest (i + 1) t w0 by simp [method_loop, hs]]
    exact method_loop_all_none inp std_dev zt rest (i + 1) t w0
      (fun m hm => hall m (List.mem_cons_of_mem m0 hm))

/-- The weights entry of a method with no service row is never read by
the per-method loop: replacing it changes nothing. -/
lemma method_loop_set_weights (inp : SimInput) (m : ℕ) (w' : Option Weights)
    (hr : inp.services m = none) (std_dev : ℚ) (zt : ℕ → ℕ → ℚ) :
    ∀ (ms : List ℕ) (i : ℕ) (t : ℚ) (w0 : Option Weights),
      method_loop (set_weights inp m w') std_dev zt ms i t w0 =
        method_loop inp std_dev zt ms i t w0
  | [], i, t, w0 => by simp [method_loop]
  | k :: rest, i, t, w0 => by
    have hserv : (set_weights inp m w').services k = inp.services k := rfl
    cases hs : inp.services k with
    | none =>
      rw [show method_loop (set_weights inp m w') std_dev zt (k :: rest) i t w0 =
          method_loop (set_weights inp m w') std_dev zt rest (i + 1) t w0 by
        simp [method_loop, hserv, hs]]
      rw [show method_loop inp std_dev zt (k :: rest) i t w0 =
          method_loop inp std_dev zt rest (i + 1) t w0 by simp [method_loop, hs]]
      exact method_loop_set_weights inp m w' hr std_dev zt rest (i + 1) t w0
    | some s =>
      have hkm : k ≠ m := by
        intro hkm
        rw [hkm, hr] at hs
        cases hs
      have hwk : (set_weights inp m w').method_weights k = inp.method_weights k := by
        simp [set_weights, hkm]
      cases hw : inp.method_weights k with
      | none =>
        simp [method_loop, hserv, hs, hwk, hw]
      | some w1 =>
        rw [show method_loop (set_weights inp m w') std_dev zt (k :: rest) i t w0 =
            method_loop (set_weights inp m w') std_dev zt rest (i + 1)
              (t +
                (w1.cost_w * sample_normal_dist s.cost_min s.cost_max std_dev (zt i 0) +
                  w1.maturity_w * sample_normal_dist s.maturity_min s.maturity_max std_dev (zt i 1) +
                  w1.integration_w * sample_normal_dist s.integration_min s.integration_max std_dev (zt i 2) +
                  w1.interoperability_w * sample_normal_dist s.interoperability_min s.interoperability_max std_dev (zt i 3)))
              (some w1) by simp [method_loop, hserv, hs, hwk, hw]]
        rw [show method_loop inp std_dev zt (k :: rest) i t w0 =
            method_loop inp std_dev zt rest (i + 1)
              (t +
                (w1.cost_w * sample_normal_dist s.cost_min s.cost_max std_dev (zt i 0) +
                  w1.maturity_w * sample_normal_dist s.maturity_min s.maturity_max std_dev (zt i 1) +
                  w1.integration_w * sample_normal_dist s.integration_min s.integration_max std_dev (zt i 2) +
                  w1.interoperability_w * sample_normal_dist s.interoperability_min s.interoperability_max std_dev (zt i 3)))
              (some w1) by simp [method_loop, hs, hw]]
        exact method_loop_set_weights inp m w' hr std_dev zt rest (i + 1) _ (some w1)

/-- Replacing the weights entry of a method without a service row does
not change the outcome of any number of trials. -/
lemma trials_loop_set_weights (inp : SimInput) (m : ℕ) (w' : Option Weights)
    (hr : inp.services m = none) (std_dev : ℚ) (z : ℕ → ℕ → ℕ → ℚ) (ms : List ℕ) :
    ∀ (T t : ℕ) (w0 : Option Weights),
      trials_loop (set_weights inp m w') std_dev z ms T t w0 =
        trials_loop inp std_dev z ms T t w0
  | 0, t, w0 => by simp [trials_loop]
  | T + 1, t, w0 => by
    simp only [trials_loop, method_loop_set_weights inp m w' hr std_dev (z t) ms 0 0 w0]
    cases method_loop inp std_dev (z t) ms 0 0 w0 with
    | error e => rfl
    | ok p =>
      rcases p with ⟨total, weights'⟩
      cases weights' with
      | none => rfl
      | some w =>
        simp only [trials_loop_set_weights inp m w' hr std_dev z ms T (t + 1) (some w)]

/-- A degenerate range `[p, p]` forces the sampler's output to `p`
whatever the spread and the draw. -/
lemma sample_normal_dist_point (p std_dev z : ℚ) :
    sample_normal_dist p p std_dev z = p := by
  simp only [sample_normal_dist]
  exact min_eq_left (le_max_right _ _)

/-- With degenerate ranges a method's score does not depend on the
spread or on the draws. -/
lemma methodScore_point (inp : SimInput) (m : ℕ)
    (hpt : ∀ s, inp.services m = some s →
      s.cost_min = s.cost_max ∧ s.maturity_min = s.maturity_max ∧
      s.integration_min = s.integration_max ∧ s.interoperability_min = s.interoperability_max)
    (sd sd' : ℚ) (zi zi' : ℕ → ℚ) :
    methodScore inp sd zi m = methodScore inp sd' zi' m := by
  cases hs : inp.services m with
  | none => simp [methodScore, hs]
  | some s =>
    cases hw : inp.method_weights m with
    | none => simp [methodScore, hs, hw]
    | some w =>
      obtain ⟨hc, hm, hi, ho⟩ := hpt s hs
      simp only [methodScore, hs, hw]
      rw [← hc, ← hm, ← hi, ← ho]
      simp only [sample_normal_dist_point]

/-- With degenerate ranges the per-trial total does not depend on the
spread or on the draws. -/
lemma trialTotalFrom_point (inp : SimInput) (sd sd' : ℚ) (zt zt' : ℕ → ℕ → ℚ) :
    ∀ ms : List ℕ, PointRanges inp ms →
      ∀ i : ℕ, trialTotalFrom inp sd zt ms i = trialTotalFrom inp sd' zt' ms i
  | [], _, i => by simp [trialTotalFrom]
  | m :: rest, hpt, i => by
    have hm : ∀ s, inp.services m = some s →
        s.cost_min = s.cost_max ∧ s.maturity_min = s.maturity_max ∧
        s.integration_min = s.integration_max ∧ s.interoperability_min = s.interoperability_max :=
      hpt m (List.mem_cons_self m rest)
    have hrest : PointRanges inp rest :=
      fun k hk => hpt k (List.mem_cons_of_mem m hk)
    simp only [trialTotalFrom]
    rw [methodScore_point inp m hm sd sd' (zt i) (zt' i),
      trialTotalFrom_point inp sd sd' zt zt' rest hrest (i + 1)]

/-- The list mean only depends on the multiset of entries. -/
lemma listMean_perm (xs ys : List ℚ) (h : xs.Perm ys) :
    listMean xs = listMean ys := by
  have hlen : xs.length = ys.length := h.length_eq
  have hsum : xs.sum = ys.sum := h.sum_eq
  have hemp : xs.isEmpty = ys.isEmpty := by
    cases xs <;> cases ys <;> simp_all
  unfold listMean
  rw [hemp, hsum, hlen]

/-- With every range degenerate, a successful run returns the same
score in every trial. -/
lemma monte_carlo_point_replicate (inp : SimInput) (ms : List ℕ)
    (hpt : PointRanges inp ms) (sd : ℚ) (z : ℕ → ℕ → ℕ → ℚ) (T : ℕ)
    (scores : List ℚ)
    (h : monte_carlo_simulation inp sd z ms T = .ok scores) :
    ∃ c, scores = List.replicate T c := by
  cases T with
  | zero =>
    refine ⟨0, ?_⟩
    simp only [monte_carlo_simulation, trials_loop, List.replicate] at h ⊢
    exact (Except.ok.injEq _ _).mp h.symm ▸ rfl
  | succ S =>
    rw [monte_carlo_simulation] at h
    cases hml : method_loop inp sd (z 0) ms 0 0 none with
    | error e =>
      rw [show trials_loop inp sd z ms (S + 1) 0 none = .error e by
        simp [trials_loop, hml]] at h
      cases h
    | ok p =>
      rcases p with ⟨total, w'⟩
      cases w' with
      | none =>
        rw [show trials_loop inp sd z ms (S + 1) 0 none = .error .unboundLocalError by
          simp [trials_loop, hml]] at h
        cases h
      | some w =>
        have H1 := method_loop_ok_weights inp sd (z 0) ms 0 0 none (total, some w) hml
        have heq := method_loop_ok inp sd (z 0) ms 0 0 none H1
        rw [hml] at heq
        have hw0 : loop_weights inp none ms = some w := by
          have := ((Prod.mk.injEq _ _ _ _).mp ((Except.ok.injEq _ _).mp heq)).2
          exact this.symm
        rw [trials_loop_ok inp sd z ms w H1 (S + 1) 0 none hw0] at h
        refine ⟨trialTotal inp sd (z 0) ms / (w.values_sum * (ms.length : ℚ)), ?_⟩
        have hmap : (List.range (S + 1)).map (fun k =>
            trialTotal inp sd (z (0 + k)) ms / (w.values_sum * (ms.length : ℚ))) =
            (List.range (S + 1)).map (fun _ =>
              trialTotal inp sd (z 0) ms / (w.values_sum * (ms.length : ℚ))) := by
          apply List.map_congr_left
          intro k _
          simp only [trialTotal]
          rw [trialTotalFrom_point inp sd sd (z (0 + k)) (z 0) ms hpt 0]
        rw [hmap, List.map_const', List.length_range] at h
        exact ((Except.ok.injEq _ _).mp h).symm

/-- The population variance of a constant sequence is zero. -/
lemma listVariance_replicate (T : ℕ) (c : ℚ) :
    listVariance (List.replicate T c) = 0 := by
  cases T with
  | zero => simp [listVariance]
  | succ S =>
    have hcast : ((S + 1 : ℕ) : ℚ) ≠ 0 := Nat.cast_ne_zero.mpr (Nat.succ_ne_zero S)
    have hsum : (List.replicate (S + 1) c).sum = ((S + 1 : ℕ) : ℚ) * c := by
      rw [List.sum_replicate, nsmul_eq_mul]
    simp only [listVariance, List.length_replicate, hsum, List.map_replicate,
      mul_div_cancel_left₀ c hcast, sub_self]
    simp

/-! ### Claim theorems -/

/-- C1: In every trial of `monte_carlo_simulation`, the accumulated
total of weighted method scores is divided by the sum of the four
weight values of the LAST processed method (the last selected method
that has a service row) times the number of selected methods — and, as
the concrete two-method instance shows, this differs from dividing by
the sum of all methods' weight sums times the method count. -/
theorem normalization_uses_last_method_weights :
    (∀ (inp : SimInput) (ms : List ℕ) (std_dev : ℚ) (z : ℕ → ℕ → ℕ → ℚ)
      (T : ℕ) (w : Weights),
      (∀ m ∈ ms, (inp.services m).isSome → (inp.method_weights m).isSome) →
      last_ranged_weights inp ms = some w →
      monte_carlo_simulation inp std_dev z ms T =
        .ok ((List.range T).map (fun t =>
          trialTotal inp std_dev (z t) ms / (w.values_sum * (ms.length : ℚ))))) ∧
    monte_carlo_simulation inp2 0 z0 [1, 2] 1 = .ok [3 / 4] ∧
    trialTotal inp2 0 (z0 0) [1, 2] /
      (all_weights_sum inp2 [1, 2] * (([1, 2] : List ℕ).length : ℚ)) = 1 / 2 ∧
    (3 / 4 : ℚ) ≠ 1 / 2 := by
  refine ⟨?_, ?_, ?_, by norm_num⟩
  · intro inp ms std_dev z T w H1 H2
    exact monte_carlo_ok inp std_dev z ms T w H1 H2
  · norm_num [monte_carlo_simulation, trials_loop, method_loop, inp2, z0,
      w_ones, w_twos, row_ones, sample_normal_dist, Weights.values_sum]
  · norm_num [trialTotal, trialTotalFrom, methodScore, all_weights_sum, inp2, z0,
      w_ones, w_twos, row_ones, sample_normal_dist, Weights.values_sum,
      List.filterMap_cons]

/-- Witness for C1 at a concrete input: the one-method catalog `inp9`
satisfies the hypotheses and the run indeed normalizes by the last
(only) method's weight sum times the method count. -/
theorem normalization_uses_last_method_weights_witness :
    (∀ m ∈ ([1] : List ℕ), (inp9.services m).isSome → (inp9.method_weights m).isSome) ∧
    last_ranged_weights inp9 [1] = some w_ones ∧
    monte_carlo_simulation inp9 0 z0 [1] 1 =
      .ok ((List.range 1).map (fun t =>
        trialTotal inp9 0 (z0 t) [1] / (w_ones.values_sum * (([1] : List ℕ).length : ℚ)))) := by
  have h1 : ∀ m ∈ ([1] : List ℕ), (inp9.services m).isSome → (inp9.method_weights m).isSome :=
    fun m hm _ => by rw [List.mem_singleton.mp hm]; simp [inp9]
  have h2 : last_ranged_weights inp9 [1] = some w_ones := by
    simp [last_ranged_weights, inp9]
  exact ⟨h1, h2, normalization_uses_last_method_weights.1 inp9 [1] 0 z0 1 w_ones h1 h2⟩

/-- C2: on a valid input (non-empty selection, every selected method
with both a service row and a weights entry) the run returns exactly
`T` scores for every `T ≥ 0`, the empty sequence for `T = 0`. -/
theorem run_length_eq_trials (inp : SimInput) (ms : List ℕ) (std_dev : ℚ)
    (z : ℕ → ℕ → ℕ → ℚ) (T : ℕ) (hne : ms ≠ [])
    (hvalid : ∀ m ∈ ms, (inp.services m).isSome ∧ (inp.method_weights m).isSome) :
    ∃ scores, monte_carlo_simulation inp std_dev z ms T = .ok scores ∧
      scores.length = T ∧ (T = 0 → scores = []) := by
  have H1 : ∀ m ∈ ms, (inp.services m).isSome → (inp.method_weights m).isSome :=
    fun m hm _ => (hvalid m hm).2
  have hfil : ms.filter (fun m => (inp.services m).isSome) = ms :=
    List.filter_eq_self.mpr (fun m hm => (hvalid m hm).1)
  obtain ⟨mlast, hml⟩ : ∃ mlast, ms.getLast? = some mlast := by
    cases hg : ms.getLast? with
    | none => exact absurd (List.getLast?_eq_none_iff.mp hg) hne
    | some mlast => exact ⟨mlast, rfl⟩
  have hmem : mlast ∈ ms := List.mem_of_getLast?_eq_some hml
  obtain ⟨w, hw⟩ := Option.isSome_iff_exists.mp (hvalid mlast hmem).2
  have H2 : last_ranged_weights inp ms = some w := by
    unfold last_ranged_weights
    rw [hfil, hml]
    simpa using hw
  refine ⟨_, monte_carlo_ok inp std_dev z ms T w H1 H2, by simp, ?_⟩
  intro hT
  subst hT
  simp

/-- Witness for C2: a valid one-method input returns three scores for
`T = 3`. -/
theorem run_length_eq_trials_witness :
    ([1] : List ℕ) ≠ [] ∧
    (∀ m ∈ ([1] : List ℕ), (inp9.services m).isSome ∧ (inp9.method_weights m).isSome) ∧
    ∃ scores, monte_carlo_simulation inp9 0 z0 [1] 3 = .ok scores ∧
      scores.length = 3 ∧ (3 = 0 → scores = []) := by
  have hvalid : ∀ m ∈ ([1] : List ℕ), (inp9.services m).isSome ∧ (inp9.method_weights m).isSome :=
    fun m hm => by rw [List.mem_singleton.mp hm]; exact ⟨by simp [inp9], by simp [inp9]⟩
  exact ⟨by simp, hvalid, run_length_eq_trials inp9 [1] 0 z0 3 (by simp) hvalid⟩

/-- C3: for a valid range the sampler's output is clipped into
`[min_val, max_val]`: it never leaves the range, a draw below the
minimum becomes the minimum and a draw above the maximum becomes the
maximum, whatever the spread. -/
theorem sample_normal_dist_clips_to_range (min_val max_val std_dev z : ℚ)
    (h : min_val ≤ max_val) :
    min_val ≤ sample_normal_dist min_val max_val std_dev z ∧
    sample_normal_dist min_val max_val std_dev z ≤ max_val ∧
    ((min_val + max_val) / 2 + std_dev * z < min_val →
      sample_normal_dist min_val max_val std_dev z = min_val) ∧
    (max_val < (min_val + max_val) / 2 + std_dev * z →
      sample_normal_dist min_val max_val std_dev z = max_val) := by
  simp only [sample_normal_dist]
  refine ⟨le_min h (le_max_right _ _), min_le_left _ _, ?_, ?_⟩
  · intro hd
    rw [max_eq_right (le_of_lt hd), min_eq_right h]
  · intro hd
    rw [max_eq_left (le_of_lt (lt_of_le_of_lt h hd))]
    exact min_eq_left (le_of_lt hd)

/-- Witness for C3 on the range `[0, 1]` with spread `5` and draw
`z = 100` (the raw draw `0.5 + 500` exceeds the maximum, so the
sample is clipped to `1`). -/
theorem sample_normal_dist_clips_to_range_witness :
    (0 : ℚ) ≤ 1 ∧
    ((0 : ℚ) ≤ sample_normal_dist 0 1 5 100 ∧
      sample_normal_dist 0 1 5 100 ≤ 1 ∧
      (((0 : ℚ) + 1) / 2 + 5 * 100 < 0 → sample_normal_dist 0 1 5 100 = 0) ∧
      ((1 : ℚ) < (0 + 1) / 2 + 5 * 100 → sample_normal_dist 0 1 5 100 = 1)) :=
  ⟨by norm_num, sample_normal_dist_clips_to_range 0 1 5 100 (by norm_num)⟩

/-- C4 counterexample: with an empty selection both operations can
return results.  A zero-trial run returns the empty score sequence and
the radar-chart computation returns an (undefined-mean) value list;
neither fails, and in particular neither raises a typed
`EmptySelection` error (no such error exists in the source). -/
theorem empty_selection_returns_results :
    monte_carlo_simulation inp_empty 0 z0 [] 0 = .ok [] ∧
    generate_radar_chart inp_empty [] = [none, none, none, none, none] := by
  constructor
  · rfl
  · rfl

/-- C4 amended: with an empty selection, a run of at least one trial
fails with `UnboundLocalError` (the local `weights` variable is read
before assignment), a zero-trial run returns the empty sequence, and
the radar-chart computation does not fail: every attribute mean is the
undefined (NaN) mean of an empty list. -/
theorem empty_selection_behavior (inp : SimInput) (std_dev : ℚ)
    (z : ℕ → ℕ → ℕ → ℚ) (T : ℕ) (hT : 1 ≤ T) :
    monte_carlo_simulation inp std_dev z [] T = .error .unboundLocalError ∧
    monte_carlo_simulation inp std_dev z [] 0 = .ok [] ∧
    generate_radar_chart inp [] = [none, none, none, none, none] := by
  refine ⟨?_, rfl, rfl⟩
  obtain ⟨S, rfl⟩ : ∃ S, T = S + 1 := ⟨T - 1, by omega⟩
  rw [monte_carlo_simulation]
  simp [trials_loop, method_loop]

/-- Witness for C4's amended statement at one trial on the empty
catalog. -/
theorem empty_selection_behavior_witness :
    1 ≤ 1 ∧
    (monte_carlo_simulation inp_empty 0 z0 [] 1 = .error .unboundLocalError ∧
      monte_carlo_simulation inp_empty 0 z0 [] 0 = .ok [] ∧
      generate_radar_chart inp_empty [] = [none, none, none, none, none]) :=
  ⟨by norm_num, empty_selection_behavior inp_empty 0 z0 1 (by norm_num)⟩

/-- C5: when some selected method has a service row but no weights
entry, any run of at least one trial fails with the `KeyError` raised
by the dictionary lookup `method_weights[method.method_id]` — the
source's realization of the missing-weights error — naming a method
whose weights are missing. -/
theorem run_fails_on_missing_weights (inp : SimInput) (ms : List ℕ)
    (std_dev : ℚ) (z : ℕ → ℕ → ℕ → ℚ) (T : ℕ) (m : ℕ)
    (hm : m ∈ ms) (hs : (inp.services m).isSome)
    (hw : inp.method_weights m = none) (hT : 1 ≤ T) :
    ∃ m', monte_carlo_simulation inp std_dev z ms T = .error (.keyError m') ∧
      (inp.services m').isSome ∧ inp.method_weights m' = none := by
  obtain ⟨S, rfl⟩ : ∃ S, T = S + 1 := ⟨T - 1, by omega⟩
  obtain ⟨m', h1, h2, h3⟩ :=
    method_loop_key_error inp std_dev (z 0) ms 0 0 none ⟨m, hm, hs, hw⟩
  refine ⟨m', ?_, h2, h3⟩
  rw [monte_carlo_simulation]
  simp [trials_loop, h1]

/-- Witness for C5: method 1 of `inp9` with its weights entry removed
triggers the failure. -/
theorem run_fails_on_missing_weights_witness :
    (1 : ℕ) ∈ ([1] : List ℕ) ∧
    ((set_weights inp9 1 none).services 1).isSome ∧
    (set_weights inp9 1 none).method_weights 1 = none ∧
    ∃ m', monte_carlo_simulation (set_weights inp9 1 none) 0 z0 [1] 1 =
        .error (.keyError m') ∧
      ((set_weights inp9 1 none).services m').isSome ∧
      (set_weights inp9 1 none).method_weights m' = none := by
  refine ⟨by simp, by simp [set_weights, inp9], by simp [set_weights], ?_⟩
  exact run_fails_on_missing_weights (set_weights inp9 1 none) [1] 0 z0 1 1
    (by simp) (by simp [set_weights, inp9]) (by simp [set_weights]) (by norm_num)

/-- C10: when no selected method has a service row, a run of at least
one trial fails with `UnboundLocalError` at the normalization step (the
per-method `weights` variable is never assigned); it neither returns a
sequence nor raises a `KeyError`. -/
theorem all_ranges_absent_unbound_error (inp : SimInput) (ms : List ℕ)
    (std_dev : ℚ) (z : ℕ → ℕ → ℕ → ℚ) (T : ℕ)
    (_hne : ms ≠ []) (hall : ∀ m ∈ ms, inp.services m = none) (hT : 1 ≤ T) :
    monte_carlo_simulation inp std_dev z ms T = .error .unboundLocalError := by
  obtain ⟨S, rfl⟩ : ∃ S, T = S + 1 := ⟨T - 1, by omega⟩
  rw [monte_carlo_simulation]
  simp [trials_loop, method_loop_all_none inp std_dev (z 0) ms 0 0 none hall]

/-- Witness for C10: a singleton selection with no service row. -/
theorem all_ranges_absent_unbound_error_witness :
    ([7] : List ℕ) ≠ [] ∧ (∀ m ∈ ([7] : List ℕ), inp_empty.services m = none) ∧
    monte_carlo_simulation inp_empty 0 z0 [7] 1 = .error .unboundLocalError :=
  ⟨by simp, fun m _ => rfl,
    all_ranges_absent_unbound_error inp_empty [7] 0 z0 1 (by simp)
      (fun m _ => rfl) (by norm_num)⟩

/-- C6: a selected method whose service row is absent contributes
exactly zero to every trial — its score is zero, its weights entry is
never read (replacing it changes nothing, and no error arises from it)
— while the normalization divisor still multiplies by the length of the
full selection, which counts that method. -/
theorem absent_range_contributes_zero (inp : SimInput) (ms : List ℕ)
    (m : ℕ) (w : Weights) (_hm : m ∈ ms) (hr : inp.services m = none)
    (H1 : ∀ k ∈ ms, (inp.services k).isSome → (inp.method_weights k).isSome)
    (H2 : last_ranged_weights inp ms = some w) :
    (∀ (std_dev : ℚ) (zi : ℕ → ℚ), methodScore inp std_dev zi m = 0) ∧
    (∀ (w' : Option Weights) (std_dev : ℚ) (z : ℕ → ℕ → ℕ → ℚ) (T : ℕ),
      monte_carlo_simulation (set_weights inp m w') std_dev z ms T =
        monte_carlo_simulation inp std_dev z ms T) ∧
    (∀ (std_dev : ℚ) (z : ℕ → ℕ → ℕ → ℚ) (T : ℕ),
      monte_carlo_simulation inp std_dev z ms T =
        .ok ((List.range T).map (fun t =>
          trialTotal inp std_dev (z t) ms / (w.values_sum * (ms.length : ℚ))))) := by
  refine ⟨?_, ?_, ?_⟩
  · intro std_dev zi
    simp [methodScore, hr]
  · intro w' std_dev z T
    rw [monte_carlo_simulation, monte_carlo_simulation]
    exact trials_loop_set_weights inp m w' hr std_dev z ms T 0 none
  · intro std_dev z T
    exact monte_carlo_ok inp std_dev z ms T w H1 H2

/-- Witness for C6: in the selection `[3, 1]` over `inp9`, method 3
has no service row; the run still succeeds and divides by the full
selection length 2. -/
theorem absent_range_contributes_zero_witness :
    (3 : ℕ) ∈ ([3, 1] : List ℕ) ∧ inp9.services 3 = none ∧
    monte_carlo_simulation inp9 0 z0 [3, 1] 2 =
      .ok ((List.range 2).map (fun t =>
        trialTotal inp9 0 (z0 t) [3, 1] /
          (w_ones.values_sum * (([3, 1] : List ℕ).length : ℚ)))) := by
  have hr : inp9.services 3 = none := by simp [inp9]
  have H1 : ∀ k ∈ ([3, 1] : List ℕ),
      (inp9.services k).isSome → (inp9.method_weights k).isSome := by
    intro k hk hsk
    rcases (by simpa using hk : k = 3 ∨ k = 1) with rfl | rfl
    · rw [hr] at hsk; cases hsk
    · simp [inp9]
  have H2 : last_ranged_weights inp9 [3, 1] = some w_ones := by
    simp [last_ranged_weights, inp9]
  exact ⟨by simp, hr,
    (absent_range_contributes_zero inp9 [3, 1] 3 w_ones (by simp) hr H1 H2).2.2 0 z0 2⟩

/-- C7: the radar-chart value list is invariant under permutations of a
non-empty method selection (every attribute value is a mean, which does
not depend on iteration order). -/
theorem radar_chart_perm_invariant (inp : SimInput) (ms1 ms2 : List ℕ)
    (_hne : ms1 ≠ []) (hp : ms1.Perm ms2) :
    generate_radar_chart inp ms1 = generate_radar_chart inp ms2 := by
  have hrows : (ms1.filterMap inp.services).Perm (ms2.filterMap inp.services) :=
    hp.filterMap _
  simp only [generate_radar_chart]
  rw [listMean_perm _ _ (hrows.map _), listMean_perm _ _ (hrows.map _),
    listMean_perm _ _ (hrows.map _), listMean_perm _ _ (hrows.map _)]

/-- Witness for C7 on the two orderings of the selection `[1, 3]`. -/
theorem radar_chart_perm_invariant_witness :
    ([1, 3] : List ℕ) ≠ [] ∧ ([1, 3] : List ℕ).Perm [3, 1] ∧
    generate_radar_chart inp9 [1, 3] = generate_radar_chart inp9 [3, 1] :=
  ⟨by simp, by decide,
    radar_chart_perm_invariant inp9 [1, 3] [3, 1] (by simp) (by decide)⟩

/-- C8: when every service row of the selection has all four ranges
degenerate (min = max), the sampler returns the point whatever the
spread and the draw, and any score sequence a run returns is constant
across trials. -/
theorem point_ranges_give_constant_scores (inp : SimInput) (ms : List ℕ)
    (_hne : ms ≠ []) (hpt : PointRanges inp ms) :
    (∀ p std_dev z : ℚ, sample_normal_dist p p std_dev z = p) ∧
    (∀ (std_dev : ℚ) (z : ℕ → ℕ → ℕ → ℚ) (T : ℕ) (scores : List ℚ),
      monte_carlo_simulation inp std_dev z ms T = .ok scores →
      ∀ (i j : ℕ) (hi : i < scores.length) (hj : j < scores.length),
        scores.get ⟨i, hi⟩ = scores.get ⟨j, hj⟩) := by
  refine ⟨fun p std_dev z => sample_normal_dist_point p std_dev z, ?_⟩
  intro std_dev z T scores h i j hi hj
  obtain ⟨c, rfl⟩ := monte_carlo_point_replicate inp ms hpt std_dev z T scores h
  simp [List.get_eq_getElem, List.getElem_replicate]

/-- Witness for C8: the all-ones point catalog `inp2` with two trials
produces the constant sequence `[3/4, 3/4]`. -/
theorem point_ranges_give_constant_scores_witness :
    ([1, 2] : List ℕ) ≠ [] ∧ PointRanges inp2 [1, 2] ∧
    monte_carlo_simulation inp2 0 z0 [1, 2] 2 = .ok [3 / 4, 3 / 4] ∧
    ([3 / 4, 3 / 4] : List ℚ).get ⟨0, by simp⟩ =
      ([3 / 4, 3 / 4] : List ℚ).get ⟨1, by simp⟩ := by
  have hpt : PointRanges inp2 [1, 2] := by
    intro m hm s hs
    rcases (by simpa using hm : m = 1 ∨ m = 2) with rfl | rfl
    · rw [show inp2.services 1 = some row_ones from rfl] at hs
      cases hs
      exact ⟨rfl, rfl, rfl, rfl⟩
    · rw [show inp2.services 2 = some row_ones from rfl] at hs
      cases hs
      exact ⟨rfl, rfl, rfl, rfl⟩
  have hrun : monte_carlo_simulation inp2 0 z0 [1, 2] 2 = .ok [3 / 4, 3 / 4] := by
    norm_num [monte_carlo_simulation, trials_loop, method_loop, inp2, z0,
      w_ones, w_twos, row_ones, sample_normal_dist, Weights.values_sum]
  exact ⟨by simp, hpt, hrun,
    (point_ranges_give_constant_scores inp2 [1, 2] (by simp) hpt).2
      0 z0 2 [3 / 4, 3 / 4] hrun 0 1 (by simp) (by simp)⟩

/-- C9: one method with Cost `[3,5]`, Maturity `[6,8]`, Integration
`[4,6]`, Interoperability `[5,7]`, all weights `1.0` and spread `0`:
whatever the draws, every trial's weighted score is the midpoint sum
`4 + 7 + 5 + 6 = 22`, the run returns the constant sequence of
`22 / (4 * 1) = 5.5`, and the population variance of that sequence is
zero. -/
theorem single_method_degenerate_scenario :
    (∀ zi : ℕ → ℚ, methodScore inp9 0 zi 1 = 22) ∧
    (∀ (z : ℕ → ℕ → ℕ → ℚ) (T : ℕ),
      monte_carlo_simulation inp9 0 z [1] T = .ok (List.replicate T (11 / 2))) ∧
    (∀ T : ℕ, listVariance (List.replicate T ((11 : ℚ) / 2)) = 0) := by
  have hms : ∀ zi : ℕ → ℚ, methodScore inp9 0 zi 1 = 22 := by
    intro zi
    norm_num [methodScore, inp9, row9, w_ones, sample_normal_dist, min_def, max_def]
  refine ⟨hms, ?_, fun T => listVariance_replicate T _⟩
  intro z T
  have H1 : ∀ m ∈ ([1] : List ℕ),
      (inp9.services m).isSome → (inp9.method_weights m).isSome :=
    fun m hm _ => by rw [List.mem_singleton.mp hm]; simp [inp9]
  have H2 : last_ranged_weights inp9 [1] = some w_ones := by
    simp [last_ranged_weights, inp9]
  rw [monte_carlo_ok inp9 0 z [1] T w_ones H1 H2]
  have hscore : ∀ t, trialTotal inp9 0 (z t) [1] /
      (w_ones.values_sum * (([1] : List ℕ).length : ℚ)) = 11 / 2 := by
    intro t
    simp only [trialTotal, trialTotalFrom, hms (z t 0)]
    norm_num [w_ones, Weights.values_sum]
  rw [List.map_congr_left (fun t _ => hscore t), List.map_const', List.length_range]
